import Mathlib

/-!
Verification of the parallel-patterns skeleton library (`patterns.c`).

Elements are opaque fixed-size records, modelled by a type `α` with a
distinguished value `z : α` standing for the all-zero-bytes record produced
by `memset`/`calloc`.  Buffers are modelled as total maps from indices to
elements (`Nat → α`, or `Int → α` where C pointer arithmetic can reach
negative offsets).  Operator callbacks are pure functions `α → α → α` /
`α → α`; the aliasing tolerance demanded by the C contract is automatic.
Worker counts are explicit parameters (`omp_get_max_threads()` becomes a
parameter `nThreads`); OpenMP parallel loops whose iterations write disjoint
locations are embedded as sequential loops in iteration order.
-/

namespace CP1920

/-- Write one element of a `Nat`-indexed buffer. -/
def wr {α : Type} (d : Nat → α) (i : Nat) (v : α) : Nat → α :=
  fun j => if j = i then v else d j

/-- Write one element of an `Int`-indexed buffer (for `scatter`, whose
destination index comes from a C `int` and may be negative). -/
def wrI {α : Type} (d : Int → α) (i : Int) (v : α) : Int → α :=
  fun j => if j = i then v else d j

/-- The list of elements `s start, s (start+1), ..., s (start+len-1)`. -/
def seg {α : Type} (s : Nat → α) (start len : Nat) : List α :=
  (List.range len).map fun i => s (start + i)

/-- From `patterns.c`: `size_t min(size_t a, size_t b)`. -/
def minSize (a b : Nat) : Nat :=
  if a < b then a else b

/-- From `patterns.c`: `getTileIndex(tile, leftOverTiles, tileSize)`. -/
def getTileIndex (tile leftOverTiles tileSize : Nat) : Nat :=
  if tile = 0 then 0
  else if tile < leftOverTiles then tile * (tileSize + 1)
  else leftOverTiles * (tileSize + 1) + (tile - leftOverTiles) * tileSize

/-- The length `tileSizeWithOffset = tileSize + (tile < leftOverJobs ? 1 : 0)`
computed in each tiled loop of `patterns.c`. -/
def tileSizeWithOffset (tileSize leftOverJobs tile : Nat) : Nat :=
  tileSize + if tile < leftOverJobs then 1 else 0

/-- Left fold of `op` over `s start .. s (start+len-1)`, accumulating in
place: the loop
`for (i = 0; i < len; i++) worker(&acc, &acc, &s[i + start]);`. -/
def foldRange {α : Type} (op : α → α → α) (s : Nat → α) : α → Nat → Nat → α
  | acc, _, 0 => acc
  | acc, start, len + 1 => foldRange op s (op acc (s start)) (start + 1) len

/-- Embedding of `reduceImpl(dest, src, nJob, sizeJob, worker, nThreads)`.
`z` is the all-zero element written by `memset(dest, 0, sizeJob)` and by the
`calloc`s of `result` and `phase1reduction`.  Phase 1 folds each tile from
the zeroed scratch slot; phase 2 folds the per-tile partials left to right
from the zeroed `result`.  The returned value is the single element stored
into `dest`. -/
def reduceImpl {α : Type} (z : α) (op : α → α → α) (s : Nat → α)
    (nJob nThreads : Nat) : α :=
  if nJob = 0 then z
  else
    let tileSize := nJob / nThreads
    let leftOverJobs := nJob % nThreads
    let nTiles := minSize nJob nThreads
    List.foldl op z ((List.range nTiles).map fun tile =>
      foldRange op s z (getTileIndex tile leftOverJobs tileSize)
        (tileSizeWithOffset tileSize leftOverJobs tile))

/-- Start offset of reduce/scan tile `t` when `nJob` items are split over
`nThreads` workers, exactly as `reduceImpl` computes it. -/
def tileStart (nJob nThreads t : Nat) : Nat :=
  getTileIndex t (nJob % nThreads) (nJob / nThreads)

/-- Length of reduce/scan tile `t` when `nJob` items are split over
`nThreads` workers, exactly as `reduceImpl` computes it. -/
def tileLength (nJob nThreads t : Nat) : Nat :=
  tileSizeWithOffset (nJob / nThreads) (nJob % nThreads) t

/-- The tile length stated by the specification contract, which divides by
`nTiles = min(totalItems, workerCount)` rather than by the worker count. -/
def specTileLength (n w t : Nat) : Nat :=
  let nT := minSize n w
  n / nT + if t < n % nT then 1 else 0

/-- The tile start offset stated by the specification contract. -/
def specTileStart (n w t : Nat) : Nat :=
  let nT := minSize n w
  let ts := n / nT
  let l := n % nT
  if t < l then t * (ts + 1) else l * (ts + 1) + (t - l) * ts

/-- The strict left-to-right fold of `src[0..n)`, a zero-valued element when
`n = 0`: the sequential reference that `reduce` is specified to compute. -/
def strictFold {α : Type} (z : α) (op : α → α → α) (s : Nat → α) (n : Nat) : α :=
  if n = 0 then z else List.foldl op (s 0) (seg s 1 (n - 1))

/-- The strict sequential inclusive running fold: the value at index `i` of
the left-to-right inclusive scan of `src` (fold of `src[0..i]`). -/
def seqInclusive {α : Type} (op : α → α → α) (s : Nat → α) : Nat → α
  | 0 => s 0
  | i + 1 => op (seqInclusive op s i) (s (i + 1))

/-- Phase-1 scratch array of `scan`: slot 0 holds `src[0]` (the `memcpy`),
and slot `tile + 1` holds the one-thread `reduceImpl` of tile `tile` of the
elements `[1, nJob)`, exactly as the loop
`for (tile = 0; tile < nTiles - 1; tile++)` fills it. `ts`/`l` are the
`tileSize`/`leftOverJobs` locals of `scan`. -/
def scanPhase1 {α : Type} (z : α) (op : α → α → α) (s : Nat → α)
    (ts l : Nat) : Nat → α :=
  fun t =>
    if t = 0 then s 0
    else reduceImpl z op (fun i => s (getTileIndex (t - 1) l ts + 1 + i))
      (tileSizeWithOffset ts l (t - 1)) 1

/-- Phase-2 scratch array of `scan`: slot 0 holds `src[0]`, and
`phase2reduction[tile] = op(phase2reduction[tile-1], phase1reduction[tile])`. -/
def scanPhase2 {α : Type} (z : α) (op : α → α → α) (s : Nat → α)
    (ts l : Nat) : Nat → α
  | 0 => s 0
  | t + 1 => op (scanPhase2 z op s ts l t) (scanPhase1 z op s ts l (t + 1))

/-- The inner loop of `scan`'s final phase for one tile:
`for (i = 1; i < tileSizeWithOffset; i++)
   d[i+ti] = op(d[i-1+ti], s[i+ti])`, with `k` iterations left at loop
counter `i`.  Each step reads the destination slot written just before. -/
def scanPhase3Go {α : Type} (op : α → α → α) (s : Nat → α) :
    (Nat → α) → Nat → Nat → Nat → (Nat → α)
  | d, _, _, 0 => d
  | d, ti, i, k + 1 =>
      scanPhase3Go op s (wr d (ti + i) (op (d (ti + i - 1)) (s (ti + i))))
        ti (i + 1) k

/-- `scan`'s final phase for one tile: seed the tile's first destination
slot with `op(phase2reduction[tile], s[ti])`, then run the inner loop. -/
def scanPhase3Tile {α : Type} (op : α → α → α) (s : Nat → α) (d : Nat → α)
    (p2 : α) (ti len : Nat) : Nat → α :=
  match len with
  | 0 => d
  | k + 1 => scanPhase3Go op s (wr d ti (op p2 (s ti))) ti 1 k

/-- `scan`'s final phase over the first `t` tiles, in tile order: each tile
seeds from its phase-2 carry and walks its own destination range.  `ts`/`l`
are the `tileSize`/`leftOverJobs` locals of `scan`. -/
def scanTiles {α : Type} (z : α) (op : α → α → α) (s : Nat → α)
    (ts l : Nat) (t : Nat) (d1 : Nat → α) : Nat → α :=
  (List.range t).foldl (fun dd tile =>
    scanPhase3Tile op s dd (scanPhase2 z op s ts l tile)
      (getTileIndex tile l ts + 1)
      (tileSizeWithOffset ts l tile)) d1

/-- Embedding of `scan(dest, src, nJob, sizeJob, worker)` from `patterns.c`,
with `omp_get_max_threads()` made an explicit parameter `nThreads`.  Returns
the final destination buffer given its initial contents `d`.  The three
OpenMP-parallel tile loops write pairwise disjoint destination/scratch slots
and are embedded in tile order. -/
def scan {α : Type} (z : α) (op : α → α → α) (s : Nat → α)
    (nJob nThreads : Nat) (d : Nat → α) : Nat → α :=
  if nJob = 0 then d
  else
    let d1 := wr d 0 (s 0)
    if nJob = 1 then d1
    else
      let tileSize := (nJob - 1) / nThreads
      let leftOverJobs := (nJob - 1) % nThreads
      let nTiles := minSize (nJob - 1) nThreads
      scanTiles z op s tileSize leftOverJobs nTiles d1

/-- `inclusiveScan` just forwards to `scan`. -/
def inclusiveScan {α : Type} (z : α) (op : α → α → α) (s : Nat → α)
    (nJob nThreads : Nat) (d : Nat → α) : Nat → α :=
  scan z op s nJob nThreads d

/-- Embedding of `exclusiveScan(dest, src, nJob, sizeJob, worker)`:
`scan((TYPE *) dest + 1, src, nJob - 1, ...)`.  `nJob - 1` is C `size_t`
subtraction, so it wraps modulo `2^64` when `nJob = 0`; the destination
pointer is advanced by one element, so inner index `i` is outer index
`i + 1` and outer index `0` is never addressed by the inner call. -/
def exclusiveScan {α : Type} (z : α) (op : α → α → α) (s : Nat → α)
    (nJob nThreads : Nat) (d : Nat → α) : Nat → α :=
  let m := (nJob + (2 ^ 64 - 1)) % 2 ^ 64
  fun j => if j = 0 then d 0 else scan z op s m nThreads (fun i => d (i + 1)) (j - 1)

/-- The loop of `pack`, with `k` iterations left at loop counter `i` and
write cursor `pos`.  The filter is a C `int` array; an entry is truthy iff
it is nonzero. -/
def packGo {α : Type} (s : Nat → α) (filter : Nat → Int) :
    Nat → Nat → (Nat → α) → Nat → ((Nat → α) × Nat)
  | _, 0, d, pos => (d, pos)
  | i, k + 1, d, pos =>
      if filter i ≠ 0 then packGo s filter (i + 1) k (wr d pos (s i)) (pos + 1)
      else packGo s filter (i + 1) k d pos

/-- Embedding of `pack(dest, src, nJob, sizeJob, filter)`: returns the final
destination buffer together with the returned count `pos`. -/
def pack {α : Type} (d : Nat → α) (s : Nat → α) (nJob : Nat)
    (filter : Nat → Int) : ((Nat → α) × Nat) :=
  packGo s filter 0 nJob d 0

/-- The loop of `gatherImpl`, with `k` iterations left at loop counter `i`.
Each iteration checks `filter[i] >= (int) nJob` and calls `exit(1)` on
violation (modelled as `none`); otherwise it copies `src[filter[i]]`.  The
filter entry is a C `int` and may be negative, in which case the source is
read at a negative offset, so the source buffer is `Int`-indexed. -/
def gatherGo {α : Type} (s : Int → α) (nJob : Nat) (filter : Nat → Int) :
    Nat → Nat → (Nat → α) → Option (Nat → α)
  | _, 0, d => some d
  | i, k + 1, d =>
      if (nJob : Int) ≤ filter i then none
      else gatherGo s nJob filter (i + 1) k (wr d i (s (filter i)))

/-- Embedding of `gatherImpl(dest, src, nJob, sizeJob, filter, nFilter,
nThreads)`.  `none` models the deterministic `exit(1)` on a filter entry
`>= nJob`. -/
def gatherImpl {α : Type} (d : Nat → α) (s : Int → α) (nJob : Nat)
    (filter : Nat → Int) (nFilter : Nat) (nThreads : Nat) : Option (Nat → α) :=
  gatherGo s nJob filter 0 nFilter d

/-- Embedding of `scatter(dest, src, nJob, sizeJob, filter)`: for every
`i ∈ [0, nJob)`, `dest[filter[i]] = src[i]`.  The destination index is a C
`int` with no bounds check, so the destination buffer is `Int`-indexed. -/
def scatter {α : Type} (d : Int → α) (s : Nat → α) :
    Nat → (Nat → Int) → (Int → α)
  | 0, _ => d
  | n + 1, filter => wrI (scatter d s n filter) (filter n) (s n)

/-- Embedding of `mapImpl(dest, src, nJob, worker, nThreads)`: every index
`i < nJob` of the destination receives `worker(src[i])`; iterations write
disjoint slots, so the result is independent of the schedule. -/
def mapImpl {α : Type} (d s : Nat → α) (nJob : Nat) (worker : α → α)
    (nThreads : Nat) : Nat → α :=
  fun i => if i < nJob then worker (s i) else d i

/-- Standalone `map`: `mapImpl` at `omp_get_max_threads()` (parameter
`maxThreads` here). -/
def map {α : Type} (d s : Nat → α) (nJob : Nat) (worker : α → α)
    (maxThreads : Nat) : Nat → α :=
  mapImpl d s nJob worker maxThreads

/-- Embedding of `mapPipeline`: one full `mapImpl` per stage, the first from
`src` into `dest`, each later stage in place over `dest`.  An empty worker
list returns early, leaving the destination untouched. -/
def mapPipeline {α : Type} (d s : Nat → α) (nJob : Nat)
    (workerList : List (α → α)) (nThreads : Nat) : Nat → α :=
  match workerList with
  | [] => d
  | w0 :: rest =>
      rest.foldl (fun dd wj => mapImpl dd dd nJob wj nThreads)
        (mapImpl d s nJob w0 nThreads)

/-- Embedding of `itemBoundPipeline`: for every index `i < nJob` one worker
applies all stages back to back, the first from `src`, the rest in place. -/
def itemBoundPipeline {α : Type} (d s : Nat → α) (nJob : Nat)
    (workerList : List (α → α)) (nThreads : Nat) : Nat → α :=
  match workerList with
  | [] => d
  | w0 :: rest =>
      fun i => if i < nJob then rest.foldl (fun v wj => wj v) (w0 (s i)) else d i

/-- Embedding of `farm`: ignores `nWorkers` and forwards to `map` (which
uses `omp_get_max_threads()`, parameter `maxThreads` here), exactly as the
placeholder implementation does. -/
def farm {α : Type} (d s : Nat → α) (nJob : Nat) (worker : α → α)
    (nWorkers : Nat) (maxThreads : Nat) : Nat → α :=
  map d s nJob worker maxThreads

/-- Applying a stage list sequentially to one element:
`stageK(...stage1(x))`, the single-worker reference of the pipeline
equivalence property. -/
def applyStageList {α : Type} (l : List (α → α)) (x : α) : α :=
  l.foldl (fun v f => f v) x

/-- The list of source indices in `[i, i+k)` kept by `pack`'s filter, in
source order. -/
def keptList (filter : Nat → Int) : Nat → Nat → List Nat
  | _, 0 => []
  | i, k + 1 =>
      if filter i ≠ 0 then i :: keptList filter (i + 1) k
      else keptList filter (i + 1) k

/-- An associative operator on byte-sized elements (`Fin 16`) for which the
all-zero element is NOT an identity: `a ⊕ b = a + b + 1 (mod 16)`. -/
def cexOp : Fin 16 → Fin 16 → Fin 16 := fun a b => a + b + 1

/-- A source buffer of all-ones elements. -/
def cexOnes : Nat → Fin 16 := fun _ => 1

/-- An all-zero initial destination buffer. -/
def cexZero : Nat → Fin 16 := fun _ => 0

/-- A gather filter whose entry 0 is the negative index `-1` and whose
entry 1 is `0`: every entry is `< nJob`, so the bounds check passes. -/
def gNegFilter : Nat → Int := fun j => if j = 0 then -1 else 0

/-- A source memory that is all zero, including outside `[0, n)`. -/
def gSrcA : Int → Int := fun _ => 0

/-- A source memory that is zero on `[0, n)` for any `n ≥ 0` but `99` at
negative addresses: it agrees with `gSrcA` on every valid source index. -/
def gSrcB : Int → Int := fun i => if i < 0 then 99 else 0

/-! ### Tile arithmetic -/

theorem minSize_eq_min (a b : Nat) : minSize a b = min a b := by
  unfold minSize
  split <;> omega

theorem getTileIndex_eval (t l ts : Nat) :
    getTileIndex t l ts =
      if t < l then t * (ts + 1) else l * (ts + 1) + (t - l) * ts := by
  unfold getTileIndex
  rcases Nat.eq_zero_or_pos t with h | h
  · subst h
    simp only [if_pos rfl]
    rcases Nat.eq_zero_or_pos l with hl | hl
    · simp [hl]
    · simp [hl]
  · rw [if_neg (by omega)]

theorem getTileIndex_succ (t l ts : Nat) :
    getTileIndex (t + 1) l ts =
      getTileIndex t l ts + tileSizeWithOffset ts l t := by
  rw [getTileIndex_eval, getTileIndex_eval]
  unfold tileSizeWithOffset
  rcases Nat.lt_trichotomy (t + 1) l with h | h | h
  · rw [if_pos h, if_pos (by omega), if_pos (by omega)]
    ring
  · subst h
    rw [if_neg (by omega), if_pos (by omega), if_pos (by omega)]
    simp only [Nat.sub_self, Nat.zero_mul, Nat.add_zero]
    ring
  · rw [if_neg (by omega), if_neg (by omega), if_neg (by omega)]
    have h1 : t + 1 - l = (t - l) + 1 := by omega
    rw [h1]
    ring

theorem tileStart_succ (n w t : Nat) :
    tileStart n w (t + 1) = tileStart n w t + tileLength n w t := by
  unfold tileStart tileLength
  exact getTileIndex_succ t (n % w) (n / w)

/-- The end of the last tile is the total item count. -/
theorem tileStart_nTiles (n w : Nat) (hw : 1 ≤ w) :
    tileStart n w (minSize n w) = n := by
  unfold tileStart
  rw [minSize_eq_min, getTileIndex_eval]
  rcases le_or_lt w n with h | h
  · rw [min_eq_right h, if_neg (by have := Nat.mod_lt n hw; omega)]
    have hmod : n % w ≤ w := le_of_lt (Nat.mod_lt n hw)
    have hsub : (w - n % w) * (n / w) = w * (n / w) - n % w * (n / w) :=
      Nat.sub_mul _ _ _
    have hmq : n % w * (n / w) ≤ w * (n / w) := Nat.mul_le_mul_right _ hmod
    calc n % w * (n / w + 1) + (w - n % w) * (n / w)
        = n % w * (n / w) + n % w + (w * (n / w) - n % w * (n / w)) := by
          rw [hsub]; ring
      _ = w * (n / w) + n % w := by omega
      _ = n := Nat.div_add_mod n w
  · rw [min_eq_left (le_of_lt h)]
    have hts : n / w = 0 := Nat.div_eq_of_lt h
    have hl : n % w = n := Nat.mod_eq_of_lt h
    rw [if_neg (by omega), hts, hl]
    ring

/-- Every tile with index below the tile count is nonempty. -/
theorem tileLength_pos (n w t : Nat) (hw : 1 ≤ w)
    (ht : t < minSize n w) : 1 ≤ tileLength n w t := by
  unfold tileLength tileSizeWithOffset
  rw [minSize_eq_min] at ht
  rcases le_or_lt w n with h | h
  · have : 1 ≤ n / w := Nat.one_le_div_iff hw |>.mpr h
    omega
  · have hts : n / w = 0 := Nat.div_eq_of_lt h
    have hl : n % w = n := Nat.mod_eq_of_lt h
    have : t < n := by omega
    rw [hts, hl, if_pos this]

theorem tileStart_zero (n w : Nat) : tileStart n w 0 = 0 := rfl

theorem tileStart_mono (n w : Nat) : ∀ t u, t ≤ u → tileStart n w t ≤ tileStart n w u := by
  intro t u h
  induction h with
  | refl => exact le_refl _
  | step h ih =>
    rw [tileStart_succ]
    omega

/-- Every index below the end of tile `t` lies in some earlier tile. -/
theorem tile_cover_aux (n w : Nat) :
    ∀ t i, i < tileStart n w t →
      ∃ u, u < t ∧ tileStart n w u ≤ i ∧ i < tileStart n w u + tileLength n w u := by
  intro t
  induction t with
  | zero => intro i hi; rw [tileStart_zero] at hi; omega
  | succ t ih =>
    intro i hi
    rw [tileStart_succ] at hi
    rcases Nat.lt_or_ge i (tileStart n w t) with h | h
    · obtain ⟨u, hu⟩ := ih i h
      exact ⟨u, by omega, hu.2.1, hu.2.2⟩
    · exact ⟨t, by omega, h, hi⟩

/-! ### Segment and fold lemmas -/

theorem seg_zero {α : Type} (s : Nat → α) (start : Nat) : seg s start 0 = [] := rfl

theorem seg_cons {α : Type} (s : Nat → α) (start len : Nat) :
    seg s start (len + 1) = s start :: seg s (start + 1) len := by
  unfold seg
  rw [List.range_succ_eq_map, List.map_cons, List.map_map]
  refine congrArg₂ List.cons (by rw [Nat.add_zero]) ?_
  apply List.map_congr_left
  intro i _
  simp only [Function.comp_apply]
  congr 1
  omega

theorem seg_snoc {α : Type} (s : Nat → α) (start len : Nat) :
    seg s start (len + 1) = seg s start len ++ [s (start + len)] := by
  unfold seg
  rw [List.range_succ, List.map_append, List.map_cons, List.map_nil]

theorem seg_append {α : Type} (s : Nat → α) (start a b : Nat) :
    seg s start (a + b) = seg s start a ++ seg s (start + a) b := by
  induction b with
  | zero => simp [seg_zero]
  | succ b ih =>
    have h1 : a + (b + 1) = (a + b) + 1 := rfl
    rw [h1, seg_snoc, ih, seg_snoc, List.append_assoc, ← Nat.add_assoc]

theorem seg_shift {α : Type} (s : Nat → α) (a start len : Nat) :
    seg (fun i => s (a + i)) start len = seg s (a + start) len := by
  unfold seg
  apply List.map_congr_left
  intro i _
  simp only []
  congr 1
  omega

theorem foldRange_eq_foldl {α : Type} (op : α → α → α) (s : Nat → α) :
    ∀ len acc start, foldRange op s acc start len = List.foldl op acc (seg s start len) := by
  intro len
  induction len with
  | zero => intro acc start; rfl
  | succ len ih =>
    intro acc start
    rw [foldRange, seg_cons, List.foldl_cons, ih]

theorem foldl_op_assoc {α : Type} (op : α → α → α)
    (hassoc : ∀ a b c, op (op a b) c = op a (op b c)) :
    ∀ (l : List α) (a b : α), List.foldl op (op a b) l = op a (List.foldl op b l) := by
  intro l
  induction l with
  | nil => intro a b; rfl
  | cons x l ih =>
    intro a b
    rw [List.foldl_cons, List.foldl_cons, hassoc, ih]

/-- Folding a nonempty segment onto an accumulator `a` is the same as
combining `a` with the zero-seeded fold of the segment, given associativity
and that `z` is a left identity. -/
theorem foldl_seg_absorb {α : Type} (z : α) (op : α → α → α) (s : Nat → α)
    (hassoc : ∀ a b c, op (op a b) c = op a (op b c))
    (hid : ∀ x, op z x = x) (a : α) (start k : Nat) :
    List.foldl op a (seg s start (k + 1)) =
      op a (List.foldl op z (seg s start (k + 1))) := by
  rw [seg_cons, List.foldl_cons, List.foldl_cons, hid, ← foldl_op_assoc op hassoc]

/-! ### Reduce correctness -/

/-- Tile-by-tile invariant for `reduceImpl`: after combining the first `t`
per-tile partials, the accumulator is the zero-seeded fold of all elements
strictly before tile `t`. -/
theorem reduce_partial {α : Type} (z : α) (op : α → α → α) (s : Nat → α)
    (n T : Nat) (hassoc : ∀ a b c, op (op a b) c = op a (op b c))
    (hid : ∀ x, op z x = x) (hT : 1 ≤ T) :
    ∀ t, t ≤ minSize n T →
      List.foldl op z ((List.range t).map fun tile =>
        foldRange op s z (tileStart n T tile) (tileLength n T tile)) =
      List.foldl op z (seg s 0 (tileStart n T t)) := by
  intro t
  induction t with
  | zero => intro _; rfl
  | succ t ih =>
    intro ht
    have ht' : t < minSize n T := by omega
    rw [List.range_succ, List.map_append, List.map_cons, List.map_nil,
      List.foldl_append, List.foldl_cons, List.foldl_nil, ih (by omega)]
    rw [tileStart_succ, seg_append, List.foldl_append]
    obtain ⟨k, hk⟩ : ∃ k, tileLength n T t = k + 1 := by
      have := tileLength_pos n T t hT ht'
      exact ⟨tileLength n T t - 1, by omega⟩
    rw [hk]
    rw [Nat.zero_add, foldl_seg_absorb z op s hassoc hid _ _ k,
      foldRange_eq_foldl]

/-- `reduceImpl` computes the zero-seeded left-to-right fold of the source,
for every worker count, provided the operator is associative and the
all-zero element is a left identity for it. -/
theorem reduceImpl_eq_foldl {α : Type} (z : α) (op : α → α → α) (s : Nat → α)
    (n T : Nat) (hassoc : ∀ a b c, op (op a b) c = op a (op b c))
    (hid : ∀ x, op z x = x) (hT : 1 ≤ T) :
    reduceImpl z op s n T = List.foldl op z (seg s 0 n) := by
  rcases Nat.eq_zero_or_pos n with hn | hn
  · subst hn; rfl
  · unfold reduceImpl
    rw [if_neg (by omega)]
    have h := reduce_partial z op s n T hassoc hid hT (minSize n T) (le_refl _)
    rw [tileStart_nTiles n T hT] at h
    exact h

theorem foldl_z_eq_strictFold {α : Type} (z : α) (op : α → α → α) (s : Nat → α)
    (n : Nat) (hid : ∀ x, op z x = x) :
    List.foldl op z (seg s 0 n) = strictFold z op s n := by
  rcases Nat.eq_zero_or_pos n with hn | hn
  · subst hn; rfl
  · unfold strictFold
    rw [if_neg (by omega)]
    have h1 : n = (n - 1) + 1 := by omega
    rw [h1, Nat.add_comm (n - 1) 1, seg_append, List.foldl_append]
    rw [seg_cons, seg_zero, List.foldl_cons, List.foldl_nil, hid]
    norm_num

/-- The tile geometry computed by the code (dividing by the worker count)
coincides tile by tile with the geometry the contract states (dividing by
`nTiles = min(totalItems, workerCount)`). -/
theorem tile_code_eq_spec (n w : Nat) (hn : 1 ≤ n) (hw : 1 ≤ w) (t : Nat)
    (ht : t < minSize n w) :
    tileLength n w t = specTileLength n w t ∧
      tileStart n w t = specTileStart n w t := by
  rw [minSize_eq_min] at ht
  rcases le_or_lt w n with h | h
  · have hmin : minSize n w = w := by rw [minSize_eq_min]; omega
    constructor
    · simp only [tileLength, tileSizeWithOffset, specTileLength, hmin]
    · simp only [tileStart, specTileStart, hmin, getTileIndex_eval]
  · have hmin : minSize n w = n := by rw [minSize_eq_min]; omega
    have hdw : n / w = 0 := Nat.div_eq_of_lt h
    have hmw : n % w = n := Nat.mod_eq_of_lt h
    have hdn : n / n = 1 := Nat.div_self hn
    have hmn : n % n = 0 := Nat.mod_self n
    have htn : t < n := by omega
    constructor
    · simp only [tileLength, tileSizeWithOffset, specTileLength, hmin]
      rw [hdw, hmw, hdn, hmn, if_pos htn, if_neg (by omega)]
    · simp only [tileStart, specTileStart, hmin, getTileIndex_eval]
      rw [hdn, hmn, hdw, hmw, if_pos htn, if_neg (by omega)]
      omega

/-- C3: for every `totalItems ≥ 1` and `workerCount ≥ 1`, the tile
partitioning shared by Reduce and Scan satisfies the stated contract: with
`nTiles = min(totalItems, workerCount)`, tile `t` has the stated length and
start offset; starts chain contiguously from `0` and end at `totalItems`;
tiles are pairwise disjoint, exactly cover `[0, totalItems)`, have sizes
differing by at most one, and the first `leftover` tiles get the extra
element. -/
theorem tilePartition_contract (n w : Nat) (hn : 1 ≤ n) (hw : 1 ≤ w) :
    (∀ t, t < minSize n w →
        tileLength n w t = specTileLength n w t ∧
        tileStart n w t = specTileStart n w t) ∧
    tileStart n w 0 = 0 ∧
    (∀ t, tileStart n w (t + 1) = tileStart n w t + tileLength n w t) ∧
    tileStart n w (minSize n w) = n ∧
    (∀ t u, t < u → u < minSize n w →
        tileStart n w t + tileLength n w t ≤ tileStart n w u) ∧
    (∀ i, i < n → ∃ t, t < minSize n w ∧ tileStart n w t ≤ i ∧
        i < tileStart n w t + tileLength n w t) ∧
    (∀ t, t < minSize n w → tileStart n w t + tileLength n w t ≤ n) ∧
    (∀ t u, t < minSize n w → u < minSize n w →
        tileLength n w t ≤ tileLength n w u + 1) ∧
    (∀ t, t < minSize n w →
        (t < n % minSize n w → tileLength n w t = n / minSize n w + 1) ∧
        (n % minSize n w ≤ t → tileLength n w t = n / minSize n w)) := by
  refine ⟨fun t ht => tile_code_eq_spec n w hn hw t ht, tileStart_zero n w,
    fun t => tileStart_succ n w t, tileStart_nTiles n w hw, ?_, ?_, ?_, ?_, ?_⟩
  · intro t u htu hu
    have h1 := tileStart_succ n w t
    have h2 := tileStart_mono n w (t + 1) u htu
    omega
  · intro i hi
    have hcov := tile_cover_aux n w (minSize n w) i
    rw [tileStart_nTiles n w hw] at hcov
    obtain ⟨u, hu⟩ := hcov hi
    exact ⟨u, hu.1, hu.2.1, hu.2.2⟩
  · intro t ht
    have h1 := tileStart_succ n w t
    have h2 := tileStart_mono n w (t + 1) (minSize n w) ht
    have h3 := tileStart_nTiles n w hw
    omega
  · intro t u _ _
    unfold tileLength tileSizeWithOffset
    split <;> split <;> omega
  · intro t ht
    have := tile_code_eq_spec n w hn hw t ht
    rw [this.1]
    simp only [specTileLength]
    constructor
    · intro h
      rw [if_pos h]
    · intro h
      rw [if_neg (by omega), Nat.add_zero]

/-- C3 witness: the contract evaluated at `totalItems = 5`,
`workerCount = 2`: tile 0 has the spec length, and the tiles end exactly at
item 5. -/
theorem tilePartition_contract_witness :
    tileLength 5 2 0 = specTileLength 5 2 0 ∧ tileStart 5 2 2 = 5 :=
  ⟨((tilePartition_contract 5 2 (by decide) (by decide)).1 0 (by decide)).1,
    (tilePartition_contract 5 2 (by decide) (by decide)).2.2.2.1⟩

/-- C1 (amended: the claim additionally requires the all-zero element to be
a left identity of `op`, which the zero-initialised accumulators of
`reduceImpl` rely on): for every `n ≥ 0`, source, and associative `op` with
the all-zero element as left identity, `reduce` computes the strict
left-to-right fold of `src[0..n)` at every worker count `≥ 1`, and hence
gives identical results at worker counts 1, 2 and the platform maximum. -/
theorem reduce_strictFold_allWorkerCounts {α : Type} (z : α)
    (op : α → α → α) (s : Nat → α) (n : Nat)
    (hassoc : ∀ a b c, op (op a b) c = op a (op b c))
    (hid : ∀ x, op z x = x) :
    (∀ nThreads, 1 ≤ nThreads →
        reduceImpl z op s n nThreads = strictFold z op s n) ∧
    (∀ t1 t2, 1 ≤ t1 → 1 ≤ t2 →
        reduceImpl z op s n t1 = reduceImpl z op s n t2) := by
  constructor
  · intro T hT
    rw [reduceImpl_eq_foldl z op s n T hassoc hid hT,
      foldl_z_eq_strictFold z op s n hid]
  · intro t1 t2 h1 h2
    rw [reduceImpl_eq_foldl z op s n t1 hassoc hid h1,
      reduceImpl_eq_foldl z op s n t2 hassoc hid h2]

/-- C1 witness: integer addition over `src = [1,2,3,4,5]` at worker count 2
gives the strict fold. -/
theorem reduce_strictFold_witness :
    reduceImpl (0 : Int) (fun a b => a + b) (fun i => (i : Int) + 1) 5 2 =
      strictFold (0 : Int) (fun a b => a + b) (fun i => (i : Int) + 1) 5 :=
  (reduce_strictFold_allWorkerCounts 0 (fun a b => a + b)
    (fun i => (i : Int) + 1) 5 (fun a b c => by ring) (fun x => by ring)).1
    2 (by norm_num)

/-- C1 counterexample: `cexOp` (`a ⊕ b = a + b + 1 mod 16`) is associative,
yet `reduce` on one element returns neither that element nor the zero-seeded
fold, and `reduce` on two elements differs between worker counts 1 and 2:
the claim as stated fails for an associative operator without an all-zero
identity. -/
theorem reduce_claim_counterexample :
    ((List.finRange 16).all fun a => (List.finRange 16).all fun b =>
      (List.finRange 16).all fun c =>
        decide (cexOp (cexOp a b) c = cexOp a (cexOp b c))) = true ∧
    reduceImpl 0 cexOp cexOnes 1 1 ≠ strictFold 0 cexOp cexOnes 1 ∧
    reduceImpl 0 cexOp cexOnes 2 1 ≠ reduceImpl 0 cexOp cexOnes 2 2 := by
  decide

/-! ### Scan correctness -/

theorem scanTiles_succ {α : Type} (z : α) (op : α → α → α) (s : Nat → α)
    (ts l t : Nat) (d1 : Nat → α) :
    scanTiles z op s ts l (t + 1) d1 =
      scanPhase3Tile op s (scanTiles z op s ts l t d1)
        (scanPhase2 z op s ts l t) (getTileIndex t l ts + 1)
        (tileSizeWithOffset ts l t) := by
  unfold scanTiles
  rw [List.range_succ, List.foldl_append, List.foldl_cons, List.foldl_nil]

/-- Phase-1 slot `t + 1` holds the zero-seeded fold of tile `t`'s segment
(the one-thread `reduceImpl` of that segment). -/
theorem scanPhase1_succ_eq {α : Type} (z : α) (op : α → α → α) (s : Nat → α)
    (ts l : Nat) (hassoc : ∀ a b c, op (op a b) c = op a (op b c))
    (hid : ∀ x, op z x = x) (t : Nat) :
    scanPhase1 z op s ts l (t + 1) =
      List.foldl op z
        (seg s (getTileIndex t l ts + 1) (tileSizeWithOffset ts l t)) := by
  unfold scanPhase1
  rw [if_neg (by omega)]
  simp only [Nat.add_sub_cancel]
  rw [reduceImpl_eq_foldl z op _ _ 1 hassoc hid (le_refl 1), seg_shift,
    Nat.add_zero]

theorem foldl_seqInclusive {α : Type} (op : α → α → α) (s : Nat → α) :
    ∀ k j, List.foldl op (seqInclusive op s j) (seg s (j + 1) k) =
      seqInclusive op s (j + k) := by
  intro k
  induction k with
  | zero => intro j; rw [seg_zero, List.foldl_nil, Nat.add_zero]
  | succ k ih =>
    intro j
    rw [seg_cons, List.foldl_cons]
    have h1 : op (seqInclusive op s j) (s (j + 1)) = seqInclusive op s (j + 1) := rfl
    rw [h1, ih (j + 1)]
    congr 1
    omega

/-- Combining the inclusive prefix at `j` with the zero-seeded fold of the
next nonempty block yields the inclusive prefix at the block's end. -/
theorem seqInclusive_absorb {α : Type} (z : α) (op : α → α → α) (s : Nat → α)
    (hassoc : ∀ a b c, op (op a b) c = op a (op b c))
    (hid : ∀ x, op z x = x) (j k : Nat) :
    op (seqInclusive op s j) (List.foldl op z (seg s (j + 1) (k + 1))) =
      seqInclusive op s (j + (k + 1)) := by
  rw [← foldl_seqInclusive op s (k + 1) j,
    foldl_seg_absorb z op s hassoc hid (seqInclusive op s j) (j + 1) k]

/-- Phase-2 slot `t` holds the inclusive prefix of the source up to the
last element strictly before tile `t`, i.e. the carry-in for tile `t`. -/
theorem scanPhase2_eq {α : Type} (z : α) (op : α → α → α) (s : Nat → α)
    (n' T : Nat) (hassoc : ∀ a b c, op (op a b) c = op a (op b c))
    (hid : ∀ x, op z x = x) (hT : 1 ≤ T) :
    ∀ t, t < minSize n' T →
      scanPhase2 z op s (n' / T) (n' % T) t =
        seqInclusive op s (tileStart n' T t) := by
  intro t
  induction t with
  | zero => intro _; rfl
  | succ t ih =>
    intro ht
    have ht' : t < minSize n' T := by omega
    obtain ⟨k, hk⟩ : ∃ k, tileLength n' T t = k + 1 :=
      ⟨tileLength n' T t - 1, by have := tileLength_pos n' T t hT ht'; omega⟩
    have hstep : tileStart n' T (t + 1) = tileStart n' T t + (k + 1) := by
      rw [tileStart_succ, hk]
    rw [scanPhase2, ih ht',
      scanPhase1_succ_eq z op s (n' / T) (n' % T) hassoc hid t]
    have hseg : tileSizeWithOffset (n' / T) (n' % T) t = k + 1 := hk
    have hgti : getTileIndex t (n' % T) (n' / T) = tileStart n' T t := rfl
    rw [hseg, hgti, seqInclusive_absorb z op s hassoc hid, hstep]

/-- The inner loop of the final phase writes only `[ti + i, ti + i + k)`. -/
theorem scanPhase3Go_frame {α : Type} (op : α → α → α) (s : Nat → α) :
    ∀ k (d : Nat → α) ti i j, (j < ti + i ∨ ti + i + k ≤ j) →
      scanPhase3Go op s d ti i k j = d j := by
  intro k
  induction k with
  | zero => intro d ti i j _; rfl
  | succ k ih =>
    intro d ti i j hj
    rw [scanPhase3Go, ih _ _ _ _ (by omega)]
    unfold wr
    rw [if_neg (by omega)]

/-- Values written by the final phase's inner loop: if the slot just before
position `ti + i` holds `v`, then position `ti + i + r` ends up holding the
running fold of `v` with the next `r + 1` source elements. -/
theorem scanPhase3Go_value {α : Type} (op : α → α → α) (s : Nat → α) :
    ∀ k (d : Nat → α) ti i v, 1 ≤ i → d (ti + i - 1) = v →
      ∀ r, r < k → scanPhase3Go op s d ti i k (ti + i + r) =
        List.foldl op v (seg s (ti + i) (r + 1)) := by
  intro k
  induction k with
  | zero => intro d ti i v _ _ r hr; omega
  | succ k ih =>
    intro d ti i v hi hd r hr
    rw [scanPhase3Go]
    have hwr : wr d (ti + i) (op (d (ti + i - 1)) (s (ti + i))) =
        wr d (ti + i) (op v (s (ti + i))) := by rw [hd]
    rw [hwr]
    rcases Nat.eq_zero_or_pos r with hr0 | hr0
    · subst hr0
      rw [scanPhase3Go_frame op s k _ ti (i + 1) _ (Or.inl (by omega)),
        seg_cons, seg_zero, List.foldl_cons, List.foldl_nil]
      simp [wr]
    · obtain ⟨r', rfl⟩ : ∃ r', r = r' + 1 := ⟨r - 1, by omega⟩
      have hd' : (wr d (ti + i) (op v (s (ti + i)))) (ti + (i + 1) - 1) =
          op v (s (ti + i)) := by
        have h2 : ti + (i + 1) - 1 = ti + i := by omega
        rw [h2]
        unfold wr
        rw [if_pos rfl]
      have h1 : ti + i + (r' + 1) = ti + (i + 1) + r' := by omega
      rw [h1, ih _ ti (i + 1) (op v (s (ti + i))) (by omega) hd' r' (by omega),
        seg_cons s (ti + i) (r' + 1), List.foldl_cons, ← Nat.add_assoc]

/-- The final phase of one tile writes only `[ti, ti + len)`. -/
theorem scanPhase3Tile_frame {α : Type} (op : α → α → α) (s : Nat → α)
    (d : Nat → α) (p2 : α) (ti len j : Nat) (hj : j < ti ∨ ti + len ≤ j) :
    scanPhase3Tile op s d p2 ti len j = d j := by
  cases len with
  | zero => rfl
  | succ k =>
    show scanPhase3Go op s (wr d ti (op p2 (s ti))) ti 1 k j = d j
    rw [scanPhase3Go_frame op s k _ ti 1 j (by omega)]
    unfold wr
    rw [if_neg (by omega)]

/-- Values written by the final phase of one tile: position `ti + r` ends up
holding the running fold of the carry `p2` with the tile's first `r + 1`
elements. -/
theorem scanPhase3Tile_value {α : Type} (op : α → α → α) (s : Nat → α)
    (d : Nat → α) (p2 : α) (ti len r : Nat) (hr : r < len) :
    scanPhase3Tile op s d p2 ti len (ti + r) =
      List.foldl op p2 (seg s ti (r + 1)) := by
  cases len with
  | zero => omega
  | succ k =>
    rcases Nat.eq_zero_or_pos r with hr0 | hr0
    · subst hr0
      show scanPhase3Go op s (wr d ti (op p2 (s ti))) ti 1 k (ti + 0) =
        List.foldl op p2 (seg s ti (0 + 1))
      rw [scanPhase3Go_frame op s k _ ti 1 _ (Or.inl (by omega)),
        seg_cons, seg_zero, List.foldl_cons, List.foldl_nil]
      simp [wr]
    · obtain ⟨r', rfl⟩ : ∃ r', r = r' + 1 := ⟨r - 1, by omega⟩
      show scanPhase3Go op s (wr d ti (op p2 (s ti))) ti 1 k (ti + (r' + 1)) =
        List.foldl op p2 (seg s ti (r' + 1 + 1))
      have hd' : (wr d ti (op p2 (s ti))) (ti + 1 - 1) = op p2 (s ti) := by
        have h2 : ti + 1 - 1 = ti := by omega
        rw [h2]
        unfold wr
        rw [if_pos rfl]
      have h1 : ti + (r' + 1) = ti + 1 + r' := by omega
      rw [h1, scanPhase3Go_value op s k _ ti 1 (op p2 (s ti)) (le_refl 1) hd'
        r' (by omega), seg_cons s ti (r' + 1), List.foldl_cons]

/-- Invariant of the final phase: after processing the first `t` tiles,
every destination slot before the end of tile `t - 1` holds the inclusive
prefix value, and every later slot is untouched. -/
theorem scanTiles_invariant {α : Type} (z : α) (op : α → α → α) (s : Nat → α)
    (n' T : Nat) (hassoc : ∀ a b c, op (op a b) c = op a (op b c))
    (hid : ∀ x, op z x = x) (hT : 1 ≤ T) (d1 : Nat → α) (h0 : d1 0 = s 0) :
    ∀ t, t ≤ minSize n' T →
      (∀ j, j < tileStart n' T t + 1 →
        scanTiles z op s (n' / T) (n' % T) t d1 j = seqInclusive op s j) ∧
      (∀ j, tileStart n' T t + 1 ≤ j →
        scanTiles z op s (n' / T) (n' % T) t d1 j = d1 j) := by
  intro t
  induction t with
  | zero =>
    intro _
    constructor
    · intro j hj
      have hj0 : j = 0 := by
        have : tileStart n' T 0 = 0 := tileStart_zero n' T
        omega
      subst hj0
      exact h0
    · intro j _
      rfl
  | succ t ih =>
    intro ht
    have ht' : t < minSize n' T := by omega
    obtain ⟨iha, ihb⟩ := ih (by omega)
    have hsucc : scanTiles z op s (n' / T) (n' % T) (t + 1) d1 =
        scanPhase3Tile op s (scanTiles z op s (n' / T) (n' % T) t d1)
          (scanPhase2 z op s (n' / T) (n' % T) t)
          (tileStart n' T t + 1) (tileLength n' T t) :=
      scanTiles_succ z op s (n' / T) (n' % T) t d1
    have hp2 : scanPhase2 z op s (n' / T) (n' % T) t =
        seqInclusive op s (tileStart n' T t) :=
      scanPhase2_eq z op s n' T hassoc hid hT t ht'
    rw [hsucc]
    constructor
    · intro j hj
      rw [tileStart_succ] at hj
      rcases Nat.lt_or_ge j (tileStart n' T t + 1) with hlt | hge
      · rw [scanPhase3Tile_frame op s _ _ _ _ j (Or.inl hlt)]
        exact iha j hlt
      · obtain ⟨r, rfl⟩ : ∃ r, j = (tileStart n' T t + 1) + r :=
          ⟨j - (tileStart n' T t + 1), by omega⟩
        have hr : r < tileLength n' T t := by omega
        rw [scanPhase3Tile_value op s _ _ _ _ r hr, hp2,
          foldl_seqInclusive op s (r + 1) (tileStart n' T t)]
        congr 1
        omega
    · intro j hj
      rw [tileStart_succ] at hj
      rw [scanPhase3Tile_frame op s _ _ _ _ j (Or.inr (by omega))]
      exact ihb j (by omega)

/-- `scan` computes the strict sequential inclusive running fold at every
index below the element count, for every worker count, provided `op` is
associative and the all-zero element is a left identity for it. -/
theorem scan_correct {α : Type} (z : α) (op : α → α → α) (s : Nat → α)
    (n T : Nat) (d : Nat → α)
    (hassoc : ∀ a b c, op (op a b) c = op a (op b c))
    (hid : ∀ x, op z x = x) (hT : 1 ≤ T) :
    ∀ i, i < n → scan z op s n T d i = seqInclusive op s i := by
  intro i hi
  by_cases h1 : n = 1
  · subst h1
    have hi0 : i = 0 := by omega
    subst hi0
    have hs : scan z op s 1 T d 0 = s 0 := by
      simp [scan, wr]
    rw [hs]
    rfl
  · have h0 : n ≠ 0 := by omega
    simp only [scan, if_neg h0, if_neg h1]
    have h0' : (wr d 0 (s 0)) 0 = s 0 := by
      unfold wr
      rw [if_pos rfl]
    have hinv := (scanTiles_invariant z op s (n - 1) T hassoc hid hT
      (wr d 0 (s 0)) h0' (minSize (n - 1) T) (le_refl _)).1
    rw [tileStart_nTiles (n - 1) T hT] at hinv
    exact hinv i (by omega)

/-- C2 (amended: the claim additionally requires the all-zero element to be
a left identity of `op`, which the one-thread `reduceImpl` calls inside
`scan`'s phase 1 rely on): for every `n ≥ 0`, source, worker count `≥ 1`,
and associative `op` with the all-zero element as left identity,
`inclusiveScan` sets `dest[i]` to the left fold of `src[0..i]` for every
`i < n`, identical to the strict sequential running fold. -/
theorem inclusiveScan_correct {α : Type} (z : α) (op : α → α → α)
    (s : Nat → α) (n T : Nat) (d : Nat → α)
    (hassoc : ∀ a b c, op (op a b) c = op a (op b c))
    (hid : ∀ x, op z x = x) (hT : 1 ≤ T) :
    ∀ i, i < n → inclusiveScan z op s n T d i = seqInclusive op s i :=
  scan_correct z op s n T d hassoc hid hT

/-- C2 witness: integer addition over `src = [1,2,3,4,5]` at worker
count 2, index 3. -/
theorem inclusiveScan_witness :
    inclusiveScan (0 : Int) (fun a b => a + b) (fun i => (i : Int) + 1) 5 2
      (fun _ => 0) 3 =
      seqInclusive (fun a b => a + b) (fun i => (i : Int) + 1) 3 :=
  inclusiveScan_correct 0 (fun a b => a + b) (fun i => (i : Int) + 1) 5 2
    (fun _ => 0) (fun a b c => by ring) (fun x => by ring) (by norm_num) 3
    (by norm_num)

/-- C2 counterexample: `cexOp` is associative, yet at 2 workers and `n = 3`
the scan's last slot differs from the strict sequential running fold,
because phase 1's `reduceImpl` seeds tiles with the non-identity all-zero
element. -/
theorem inclusiveScan_claim_counterexample :
    ((List.finRange 16).all fun a => (List.finRange 16).all fun b =>
      (List.finRange 16).all fun c =>
        decide (cexOp (cexOp a b) c = cexOp a (cexOp b c))) = true ∧
    inclusiveScan 0 cexOp cexOnes 3 2 cexZero 2 ≠
      seqInclusive cexOp cexOnes 2 := by
  decide

/-! ### Exclusive scan -/

/-- C4 (amended: the claim additionally requires the all-zero element to be
a left identity of `op`, and `n < 2^64` as imposed by the `size_t`
argument; without the identity the two sides are computed with different
tilings of different element counts and can disagree): after
`exclusiveScan(dest, src, n, op)` with `n ≥ 2`, `dest[i]` equals
`inclusiveScan(src)[i-1]` for every `i ∈ [1, n)` regardless of either
call's initial destination contents, and `dest[0]` is left untouched. -/
theorem exclusiveScan_shift {α : Type} (z : α) (op : α → α → α) (s : Nat → α)
    (n T : Nat) (d d2 : Nat → α)
    (hassoc : ∀ a b c, op (op a b) c = op a (op b c))
    (hid : ∀ x, op z x = x) (hT : 1 ≤ T) (hn : 2 ≤ n) (hsize : n < 2 ^ 64) :
    (∀ i, 1 ≤ i → i < n →
        exclusiveScan z op s n T d i = inclusiveScan z op s n T d2 (i - 1)) ∧
    exclusiveScan z op s n T d 0 = d 0 := by
  have h64 : (2 : Nat) ^ 64 = 18446744073709551616 := by norm_num
  have hm : (n + (2 ^ 64 - 1)) % 2 ^ 64 = n - 1 := by
    rw [h64]
    rw [h64] at hsize
    omega
  constructor
  · intro i h1 hi
    have hL : scan z op s ((n + (2 ^ 64 - 1)) % 2 ^ 64) T (fun j => d (j + 1))
        (i - 1) = seqInclusive op s (i - 1) := by
      rw [hm]
      exact scan_correct z op s (n - 1) T _ hassoc hid hT (i - 1) (by omega)
    have hR : inclusiveScan z op s n T d2 (i - 1) = seqInclusive op s (i - 1) :=
      scan_correct z op s n T d2 hassoc hid hT (i - 1) (by omega)
    simp only [exclusiveScan]
    rw [if_neg (by omega), hL, hR]
  · simp only [exclusiveScan, if_true]

/-- C4 witness: integer addition over `src = [1,2,3,4,5]` at worker
count 2: `exclusiveScan`'s slot 3 equals `inclusiveScan`'s slot 2 even with
different initial destination contents. -/
theorem exclusiveScan_witness :
    exclusiveScan (0 : Int) (fun a b => a + b) (fun i => (i : Int) + 1) 5 2
      (fun _ => 99) 3 =
      inclusiveScan (0 : Int) (fun a b => a + b) (fun i => (i : Int) + 1) 5 2
        (fun _ => 0) (3 - 1) :=
  (exclusiveScan_shift 0 (fun a b => a + b) (fun i => (i : Int) + 1) 5 2
    (fun _ => 99) (fun _ => 0) (fun a b c => by ring) (fun x => by ring)
    (by norm_num) (by norm_num) (by norm_num)).1 3 (by norm_num) (by norm_num)

/-- C4 counterexample: `cexOp` is associative, yet at 2 workers and `n = 4`
`exclusiveScan`'s slot 3 (computed by scanning 3 elements) differs from
`inclusiveScan`'s slot 2 (computed by scanning 4 elements with a different
tiling), so the claim as stated fails for an associative operator without
an all-zero identity. -/
theorem exclusiveScan_claim_counterexample :
    ((List.finRange 16).all fun a => (List.finRange 16).all fun b =>
      (List.finRange 16).all fun c =>
        decide (cexOp (cexOp a b) c = cexOp a (cexOp b c))) = true ∧
    exclusiveScan 0 cexOp cexOnes 4 2 cexZero 3 ≠
      inclusiveScan 0 cexOp cexOnes 4 2 cexZero 2 := by
  decide

/-! ### The `n = 0` base cases (C9) -/

/-- The final phase never writes destination slot 0: every tile's start is
`getTileIndex ... + 1 ≥ 1`. -/
theorem scanTiles_zero_frame {α : Type} (z : α) (op : α → α → α)
    (s : Nat → α) (ts l : Nat) :
    ∀ t (d1 : Nat → α), scanTiles z op s ts l t d1 0 = d1 0 := by
  intro t
  induction t with
  | zero => intro d1; rfl
  | succ t ih =>
    intro d1
    rw [scanTiles_succ, scanPhase3Tile_frame op s _ _ _ _ 0 (Or.inl (by omega))]
    exact ih d1

/-- For every positive element count, `scan` writes `src[0]` into
destination slot 0 (the `memcpy(d, s, sizeJob)`). -/
theorem scan_at_zero {α : Type} (z : α) (op : α → α → α) (s : Nat → α)
    (n T : Nat) (d : Nat → α) (hn : 1 ≤ n) :
    scan z op s n T d 0 = s 0 := by
  by_cases h1 : n = 1
  · subst h1
    simp [scan, wr]
  · have h0 : n ≠ 0 := by omega
    simp only [scan, if_neg h0, if_neg h1]
    rw [scanTiles_zero_frame]
    unfold wr
    rw [if_pos rfl]

/-- C9: `inclusiveScan` at `n = 0` is a no-op, but `exclusiveScan` at
`n = 0` computes `nJob - 1` in `size_t`, which wraps to `2^64 - 1`, so the
inner `scan` runs and its `memcpy` writes `src[0]` into `dest[1]`: with a
source of all `7`s and an all-zero destination, destination slot 1 becomes
`7` instead of staying `0`. -/
theorem scan_n0_noop_and_exclusive_bug :
    inclusiveScan (0 : Int) (fun a b => a + b) (fun _ => (7 : Int)) 0 1
      (fun _ => (3 : Int)) = (fun _ => (3 : Int)) ∧
    exclusiveScan (0 : Int) (fun a b => a + b) (fun _ => (7 : Int)) 0 1
      (fun _ => (0 : Int)) 1 = 7 := by
  constructor
  · rfl
  · simp only [exclusiveScan]
    rw [if_neg (by omega)]
    rw [scan_at_zero (0 : Int) (fun a b => a + b) (fun _ => (7 : Int)) _ 1 _
      (by norm_num)]

/-! ### Gather -/

/-- If every entry scanned by the remaining loop iterations passes the
bounds check, the loop succeeds, writes `src[filter[i+r]]` into slot
`i + r` for each of them, and leaves all other slots untouched. -/
theorem gatherGo_success {α : Type} (s : Int → α) (nJob : Nat)
    (filter : Nat → Int) :
    ∀ k i (d : Nat → α), (∀ r, r < k → filter (i + r) < (nJob : Int)) →
      ∃ d', gatherGo s nJob filter i k d = some d' ∧
        (∀ r, r < k → d' (i + r) = s (filter (i + r))) ∧
        (∀ j, j < i ∨ i + k ≤ j → d' j = d j) := by
  intro k
  induction k with
  | zero =>
    intro i d _
    exact ⟨d, rfl, fun r hr => by omega, fun j _ => rfl⟩
  | succ k ih =>
    intro i d hgood
    have h0 : filter i < (nJob : Int) := by
      have := hgood 0 (by omega)
      rwa [Nat.add_zero] at this
    obtain ⟨d', hsome, hval, hframe⟩ := ih (i + 1) (wr d i (s (filter i)))
      (fun r hr => by
        have := hgood (r + 1) (by omega)
        have hidx : i + (r + 1) = (i + 1) + r := by omega
        rwa [hidx] at this)
    refine ⟨d', ?_, ?_, ?_⟩
    · rw [gatherGo, if_neg (by omega)]
      exact hsome
    · intro r hr
      rcases r with _ | r'
      · have hfr := hframe i (Or.inl (by omega))
        rw [Nat.add_zero, hfr]
        unfold wr
        rw [if_pos rfl]
      · have hv := hval r' (by omega)
        have hidx : i + (r' + 1) = (i + 1) + r' := by omega
        rw [hidx]
        exact hv
    · intro j hj
      have hfr := hframe j (by omega)
      rw [hfr]
      unfold wr
      rw [if_neg (by omega)]

/-- If any entry scanned by the remaining loop iterations fails the bounds
check, the loop deterministically fails. -/
theorem gatherGo_fail {α : Type} (s : Int → α) (nJob : Nat)
    (filter : Nat → Int) :
    ∀ k i (d : Nat → α),
      (∃ r, r < k ∧ (nJob : Int) ≤ filter (i + r)) →
      gatherGo s nJob filter i k d = none := by
  intro k
  induction k with
  | zero =>
    rintro i d ⟨r, hr, _⟩
    omega
  | succ k ih =>
    rintro i d ⟨r, hr, hbad⟩
    rw [gatherGo]
    by_cases hb : (nJob : Int) ≤ filter i
    · rw [if_pos hb]
    · rw [if_neg hb]
      apply ih (i + 1)
      rcases r with _ | r'
      · rw [Nat.add_zero] at hbad
        exact absurd hbad hb
      · have hidx : i + (r' + 1) = (i + 1) + r' := by omega
        rw [hidx] at hbad
        exact ⟨r', by omega, hbad⟩

/-- C5: for every source buffer of `n` elements and every `m`-entry index
filter, if every entry satisfies `filter[i] < n` the call succeeds and sets
`dest[i] = src[filter[i]]` for every `i < m`; if some entry is `≥ n` the
call deterministically fails (the modelled `exit(1)`) rather than reading
past the source. -/
theorem gather_bounds {α : Type} (d : Nat → α) (s : Int → α) (nJob : Nat)
    (filter : Nat → Int) (nFilter nThreads : Nat) :
    ((∀ i, i < nFilter → filter i < (nJob : Int)) →
      ∃ d', gatherImpl d s nJob filter nFilter nThreads = some d' ∧
        ∀ i, i < nFilter → d' i = s (filter i)) ∧
    ((∃ i, i < nFilter ∧ (nJob : Int) ≤ filter i) →
      gatherImpl d s nJob filter nFilter nThreads = none) := by
  constructor
  · intro hgood
    obtain ⟨d', h1, h2, _⟩ := gatherGo_success s nJob filter nFilter 0 d
      (fun r hr => by
        have := hgood r hr
        rwa [Nat.zero_add])
    refine ⟨d', h1, fun i hi => ?_⟩
    have := h2 i hi
    rwa [Nat.zero_add] at this
  · rintro ⟨i, hi, hbad⟩
    exact gatherGo_fail s nJob filter nFilter 0 d
      ⟨i, hi, by rwa [Nat.zero_add]⟩

/-- C5 witness: `src = [0,100,200]`, filter `[2,0,1]` succeeds; filter
`[2,0,5]` (entry 5 out of bounds for `n = 3`) deterministically fails. -/
theorem gather_bounds_witness :
    gatherImpl (fun _ => (0 : Int)) (fun i => i * 100) 3
      (fun j => if j = 0 then 2 else if j = 1 then 0 else 1) 3 4 ≠ none ∧
    gatherImpl (fun _ => (0 : Int)) (fun i => i * 100) 3
      (fun j => if j = 0 then 2 else if j = 1 then 0 else 5) 3 4 = none := by
  constructor
  · obtain ⟨d', hsome, _⟩ := (gather_bounds (fun _ => (0 : Int))
      (fun i => i * 100) 3
      (fun j => if j = 0 then 2 else if j = 1 then 0 else 1) 3 4).1
      (by decide)
    rw [hsome]
    simp
  · exact (gather_bounds (fun _ => (0 : Int)) (fun i => i * 100) 3
      (fun j => if j = 0 then 2 else if j = 1 then 0 else 5) 3 4).2
      ⟨2, by norm_num, by norm_num⟩

/-- C10: the bounds validation rejects only entries `≥ n`.  With the filter
`[-1, 0]` and `n = 3` every entry passes the check, the call succeeds, and
the value written for entry `-1` comes from source memory outside `[0, n)`:
two source memories that agree on all of `[0, 3)` but differ at negative
addresses produce different outputs. -/
theorem gather_negative_index_reachable :
    (([0, 1, 2] : List Int).map gSrcA = ([0, 1, 2] : List Int).map gSrcB) ∧
    (gatherImpl (fun _ => (0 : Int)) gSrcA 3 gNegFilter 2 1).map
      (fun f => f 0) = some 0 ∧
    (gatherImpl (fun _ => (0 : Int)) gSrcB 3 gNegFilter 2 1).map
      (fun f => f 0) = some 99 := by
  decide

/-! ### Pipelines -/

/-- Pointwise behaviour of the stage-major tail fold: running the remaining
stages as in-place full maps over the accumulator buffer applies, at every
live index, those stages to the accumulator's value there. -/
theorem mapPipeline_fold_pointwise {α : Type} (n T : Nat) :
    ∀ (l : List (α → α)) (acc : Nat → α) i, i < n →
      (l.foldl (fun dd wj => mapImpl dd dd n wj T) acc) i =
        l.foldl (fun v f => f v) (acc i) := by
  intro l
  induction l with
  | nil => intro acc i _; rfl
  | cons w l ih =>
    intro acc i hi
    rw [List.foldl_cons, List.foldl_cons, ih _ i hi]
    congr 1
    unfold mapImpl
    rw [if_pos hi]

/-- C6: for every item count, source, worker count and nonempty list of
pure unary stage operators, the stage-major pipeline, the item-major
pipeline, and `farm` (for a single-stage worker) all set
`dest[i] = stageK(...stage1(src[i]))` for every `i < n` — identical to
applying the stage list sequentially. -/
theorem pipeline_equivalence {α : Type} (d s : Nat → α) (n : Nat)
    (w0 : α → α) (rest : List (α → α)) (T nW : Nat) :
    (∀ i, i < n → mapPipeline d s n (w0 :: rest) T i =
        applyStageList (w0 :: rest) (s i)) ∧
    (∀ i, i < n → itemBoundPipeline d s n (w0 :: rest) T i =
        applyStageList (w0 :: rest) (s i)) ∧
    (∀ i, i < n → farm d s n w0 nW T i = applyStageList [w0] (s i)) := by
  refine ⟨?_, ?_, ?_⟩
  · intro i hi
    show (rest.foldl (fun dd wj => mapImpl dd dd n wj T)
      (mapImpl d s n w0 T)) i = _
    rw [mapPipeline_fold_pointwise n T rest _ i hi]
    have hfirst : mapImpl d s n w0 T i = w0 (s i) := by
      unfold mapImpl
      rw [if_pos hi]
    rw [hfirst]
    rfl
  · intro i hi
    show (if i < n then rest.foldl (fun v wj => wj v) (w0 (s i)) else d i) = _
    rw [if_pos hi]
    rfl
  · intro i hi
    show (if i < n then w0 (s i) else d i) = _
    rw [if_pos hi]
    rfl

/-- C6 witness: two integer stages (`+1` then `*2`) over `src = [0,1,2]` at
index 1, stage-major strategy. -/
theorem pipeline_equivalence_witness :
    mapPipeline (fun _ => (0 : Int)) (fun i => (i : Int)) 3
      [fun x => x + 1, fun x => x * 2] 4 1 =
      applyStageList [fun x => x + 1, fun x => x * 2] ((1 : Nat) : Int) :=
  (pipeline_equivalence (fun _ => (0 : Int)) (fun i => (i : Int)) 3
    (fun x => x + 1) [fun x => x * 2] 4 7).1 1 (by norm_num)

/-! ### Pack -/

theorem keptList_eq (filter : Nat → Int) :
    ∀ k i, keptList filter i k =
      ((List.range k).map (fun r => i + r)).filter
        (fun j => decide (filter j ≠ 0)) := by
  intro k
  induction k with
  | zero => intro i; rfl
  | succ k ih =>
    intro i
    rw [keptList, List.range_succ_eq_map, List.map_cons, List.map_map,
      List.filter_cons]
    have hmap : (List.range k).map ((fun r => i + r) ∘ Nat.succ) =
        (List.range k).map (fun r => (i + 1) + r) := by
      apply List.map_congr_left
      intro r _
      simp only [Function.comp_apply]
      omega
    rw [hmap, ← ih (i + 1)]
    simp only [Nat.add_zero]
    by_cases h : filter i = 0
    · rw [if_neg (by simp [h]), if_neg (by simp [h])]
    · rw [if_pos h, if_pos (by simp [h])]

/-- Invariant of `pack`'s loop: with `k` iterations left at source cursor
`i` and write cursor `pos`, the loop advances the cursor by the number of
kept entries, writes the kept elements in source order at `pos, pos+1, ...`,
and leaves every other destination slot untouched. -/
theorem packGo_spec {α : Type} (s : Nat → α) (filter : Nat → Int) :
    ∀ k i (d : Nat → α) pos,
      (packGo s filter i k d pos).2 = pos + (keptList filter i k).length ∧
      (∀ m, m < (keptList filter i k).length →
        (packGo s filter i k d pos).1 (pos + m) =
          s ((keptList filter i k).getD m 0)) ∧
      (∀ j, j < pos ∨ pos + (keptList filter i k).length ≤ j →
        (packGo s filter i k d pos).1 j = d j) := by
  intro k
  induction k with
  | zero =>
    intro i d pos
    refine ⟨rfl, ?_, fun j _ => rfl⟩
    intro m hm
    simp [keptList] at hm
  | succ k ih =>
    intro i d pos
    by_cases h : filter i = 0
    · have hk : keptList filter i (k + 1) = keptList filter (i + 1) k := by
        rw [keptList, if_neg (by simp [h])]
      have hp : packGo s filter i (k + 1) d pos =
          packGo s filter (i + 1) k d pos := by
        rw [packGo, if_neg (by simp [h])]
      rw [hk, hp]
      exact ih (i + 1) d pos
    · have hk : keptList filter i (k + 1) = i :: keptList filter (i + 1) k := by
        rw [keptList, if_pos h]
      have hp : packGo s filter i (k + 1) d pos =
          packGo s filter (i + 1) k (wr d pos (s i)) (pos + 1) := by
        rw [packGo, if_pos h]
      obtain ⟨ih1, ih2, ih3⟩ := ih (i + 1) (wr d pos (s i)) (pos + 1)
      rw [hk, hp]
      refine ⟨?_, ?_, ?_⟩
      · rw [ih1, List.length_cons]
        omega
      · intro m hm
        rcases m with _ | m'
        · have hfr := ih3 pos (Or.inl (by omega))
          show (packGo s filter (i + 1) k (wr d pos (s i)) (pos + 1)).1 pos =
            s ((i :: keptList filter (i + 1) k).getD 0 0)
          rw [hfr, List.getD_cons_zero]
          unfold wr
          rw [if_pos rfl]
        · have hm' : m' < (keptList filter (i + 1) k).length := by
            rw [List.length_cons] at hm
            omega
          have hv := ih2 m' hm'
          have hidx : pos + (m' + 1) = (pos + 1) + m' := by omega
          rw [hidx, hv, List.getD_cons_succ]
      · intro j hj
        rw [List.length_cons] at hj
        have hfr := ih3 j (by omega)
        rw [hfr]
        unfold wr
        rw [if_neg (by omega)]

/-- C7: `pack` returns the count of truthy filter entries and writes
exactly the kept elements, in source order, into `dest[0..count)`, leaving
every later destination slot untouched (so an all-false filter yields count
0 and an all-true filter copies `src[0..n)`). -/
theorem pack_correct {α : Type} (d : Nat → α) (s : Nat → α) (n : Nat)
    (filter : Nat → Int) :
    (pack d s n filter).2 =
      ((List.range n).filter (fun j => decide (filter j ≠ 0))).length ∧
    (List.range (pack d s n filter).2).map (pack d s n filter).1 =
      ((List.range n).filter (fun j => decide (filter j ≠ 0))).map s ∧
    (∀ j, (pack d s n filter).2 ≤ j → (pack d s n filter).1 j = d j) := by
  have hkept0 : keptList filter 0 n =
      (List.range n).filter (fun j => decide (filter j ≠ 0)) := by
    rw [keptList_eq]
    have hmap : (List.range n).map (fun r => 0 + r) =
        (List.range n).map id := by
      apply List.map_congr_left
      intro r _
      simp
    rw [hmap, List.map_id]
  obtain ⟨h1, h2, h3⟩ := packGo_spec s filter n 0 d 0
  rw [Nat.zero_add] at h1
  rw [hkept0] at h1 h2 h3
  have hcnt : (pack d s n filter).2 =
      ((List.range n).filter (fun j => decide (filter j ≠ 0))).length := h1
  refine ⟨hcnt, ?_, ?_⟩
  · apply List.ext_getElem
    · rw [List.length_map, List.length_range, List.length_map, hcnt]
    · intro m hm1 hm2
      rw [List.getElem_map, List.getElem_range, List.getElem_map]
      have hm : m < ((List.range n).filter
          (fun j => decide (filter j ≠ 0))).length := by
        rwa [List.length_map] at hm2
      have hv := h2 m hm
      rw [Nat.zero_add] at hv
      rw [List.getD_eq_getElem _ _ hm] at hv
      exact hv
  · intro j hj
    rw [hcnt] at hj
    exact h3 j (Or.inr (by omega))

/-- C7 witness: `n = 5` with the even-index filter keeps 3 elements. -/
theorem pack_correct_witness :
    (pack (fun _ => (0 : Int)) (fun i => (i : Int) + 10) 5
        (fun i => if i % 2 = 0 then 1 else 0)).2 =
      ((List.range 5).filter
        (fun j => decide ((if j % 2 = 0 then (1 : Int) else 0) ≠ 0))).length :=
  (pack_correct (fun _ => (0 : Int)) (fun i => (i : Int) + 10) 5
    (fun i => if i % 2 = 0 then 1 else 0)).1

/-! ### Scatter -/

/-- C8: scattering with the identity index filter reproduces `src` exactly
in `dest[0..n)`. -/
theorem scatter_identity {α : Type} (d : Int → α) (s : Nat → α) (n : Nat) :
    ∀ j, j < n → scatter d s n (fun i => (i : Int)) ((j : Nat) : Int) = s j := by
  induction n with
  | zero => intro j hj; omega
  | succ n ih =>
    intro j hj
    show wrI (scatter d s n (fun i => (i : Int))) ((n : Nat) : Int) (s n)
      ((j : Nat) : Int) = s j
    by_cases hjn : j = n
    · subst hjn
      unfold wrI
      rw [if_pos rfl]
    · unfold wrI
      rw [if_neg (by omega)]
      exact ih j (by omega)

/-- C8 witness: the identity scatter of a 3-element buffer reproduces the
source at index 1. -/
theorem scatter_identity_witness :
    scatter (fun _ => (0 : Int)) (fun i => (i : Int) + 7) 3
      (fun i => (i : Int)) ((1 : Nat) : Int) = (1 : Int) + 7 :=
  scatter_identity (fun _ => (0 : Int)) (fun i => (i : Int) + 7) 3 1
    (by norm_num)

end CP1920
